import Mathlib

/-!
# Verification of the MicrosoftSmart analytics backend

Shallow embedding of the spreadsheet-analytics and loan-risk components of the
repository (`backend/services/ml_service.py`, `backend/services/excel_processor.py`).

Modelling conventions:
* Python/numpy floating-point numbers are modelled exactly as rationals (`ℚ`);
  none of the verified properties depends on binary rounding.
* A pandas cell is a tagged value that may be missing (`NaN`/`NaT`).
* Fallible operations return an explicit result value; a Python exception that
  is caught at the component boundary becomes an `err` result carrying the
  message the handler would format.
-/

attribute [local semireducible] Rat.ofScientific Rat.mul Rat.inv Rat.add Rat.sub

namespace MicrofinanceSmart

/-- Truncation toward zero: the semantics of Python `int(float)` and of numpy
`astype(int)` on finite values. -/
def ratTrunc (q : ℚ) : ℤ := if 0 ≤ q then ⌊q⌋ else ⌈q⌉

/-- A raw value held in a loan-application mapping (`loan_data[...]` in
`ml_service.py`).  Values that Python's `float()` accepts (numbers and numeric
strings) are represented by `num`; values on which `float()` raises
`ValueError` are represented by `text`. -/
inductive RawVal
  | num (q : ℚ)
  | text (s : String)
  deriving DecidableEq, Repr

/-- Python `float(v)` on a loan-data value: succeeds exactly on numeric values. -/
def floatOf : RawVal → Option ℚ
  | .num q => some q
  | .text _ => none

/-- Python `int(v)` on a loan-data value: truncates a numeric value toward zero,
raises (returns `none`) otherwise. -/
def intOf : RawVal → Option ℤ
  | .num q => some (ratTrunc q)
  | .text _ => none

/-- The loan-application mapping consumed by `MicrofinanceML.analyze_loan_risk`:
each required key is either absent (`none`) or bound to a raw value.  Extra keys
are ignored by the scorer and hence not modelled. -/
structure LoanData where
  amount : Option RawVal
  term_months : Option RawVal
  interest_rate : Option RawVal
  deriving DecidableEq, Repr

/-- The success payload of `analyze_loan_risk` (ml_service.py lines 311-319). -/
structure RiskResult where
  risk_score : ℚ
  risk_category : String
  approval_recommended : Bool
  monthly_payment : ℚ
  total_payment : ℚ
  total_interest : ℚ
  deriving DecidableEq, Repr

/-- Result of `analyze_loan_risk`: either the success dict or the `{'error': ...}`
dict produced on missing fields or by the `except` handler. -/
inductive RResult
  | ok (r : RiskResult)
  | err (msg : String)
  deriving DecidableEq, Repr

/-- `[f for f in required_fields if f not in loan_data]` (ml_service.py line 275). -/
def missingFields (d : LoanData) : List String :=
  (if d.amount = none then ["amount"] else []) ++
    (if d.term_months = none then ["term_months"] else []) ++
      (if d.interest_rate = none then ["interest_rate"] else [])

/-- `MicrofinanceML.analyze_loan_risk` (ml_service.py lines 262-323).

The arithmetic follows the source exactly, over `ℚ`:
`amount_factor = min(1.0, amount / 10000)`, `term_factor = min(1.0, term / 36)`,
`interest_factor = max(0.0, 1.0 - interest / 20)`,
`risk_score = (0.5*af + 0.3*tf + 0.2*if) * 100`, category thresholds 30/70,
then the amortization formula.  The two ways the amortization line can raise in
Python — `0.0 ** negative` and a zero denominator (in particular
`monthly_rate == 0`, where the numerator and denominator are both `0.0`, and
`term == 0`, where `(1+r)**0 - 1 == 0`) — are returned as the error dict that
the `except Exception` handler builds. -/
def analyze_loan_risk (d : LoanData) : RResult :=
  match d.amount, d.term_months, d.interest_rate with
  | some va, some vt, some vi =>
    match floatOf va with
    | none => .err "Error analyzing loan risk: could not convert string to float"
    | some amount =>
      match intOf vt with
      | none => .err "Error analyzing loan risk: invalid literal for int"
      | some term =>
        match floatOf vi with
        | none => .err "Error analyzing loan risk: could not convert string to float"
        | some interest =>
          let amount_factor := min 1 (amount / 10000)
          let term_factor := min 1 ((term : ℚ) / 36)
          let interest_factor := max 0 (1 - interest / 20)
          let risk_score := (amount_factor * 0.5 + term_factor * 0.3 + interest_factor * 0.2) * 100
          let risk_category :=
            if risk_score < 30 then "Low" else if risk_score < 70 then "Medium" else "High"
          let approval_recommended :=
            if risk_score < 30 then true
            else if risk_score < 70 then decide (risk_score < 50) else false
          let monthly_rate := interest / 100 / 12
          if 1 + monthly_rate = 0 ∧ term < 0 then
            .err "Error analyzing loan risk: 0.0 cannot be raised to a negative power"
          else
            let p := (1 + monthly_rate) ^ term
            if p - 1 = 0 then .err "Error analyzing loan risk: float division by zero"
            else
              let monthly_payment := amount * monthly_rate * p / (p - 1)
              .ok { risk_score := risk_score
                    risk_category := risk_category
                    approval_recommended := approval_recommended
                    monthly_payment := monthly_payment
                    total_payment := monthly_payment * (term : ℚ)
                    total_interest := monthly_payment * (term : ℚ) - amount }
  | _, _, _ =>
    .err ("Missing required fields: " ++ String.intercalate ", " (missingFields d))

/-- Risk score of a result, when it is a success. -/
def riskScoreOf : RResult → Option ℚ
  | .ok r => some r.risk_score
  | .err _ => none

/-- Risk category of a result, when it is a success. -/
def categoryOf : RResult → Option String
  | .ok r => some r.risk_category
  | .err _ => none

/-- Approval recommendation of a result, when it is a success. -/
def approvalOf : RResult → Option Bool
  | .ok r => some r.approval_recommended
  | .err _ => none

/-- Whether a result is the error dict. -/
def isErr : RResult → Bool
  | .ok _ => false
  | .err _ => true

/-- The risk-scoring input `{amount: 5000, term_months: 12, interest_rate: 10}`. -/
def loanA : LoanData := ⟨some (.num 5000), some (.num 12), some (.num 10)⟩

/-- The risk-scoring input `{amount: 20000, term_months: 36, interest_rate: 5}`. -/
def loanB : LoanData := ⟨some (.num 20000), some (.num 36), some (.num 5)⟩

/-- C1 counterexample: on `amount=5000, term=12, rate=10` the code computes
`riskScore = (0.5*0.5 + (1/3)*0.3 + 0.5*0.2) * 100 = 45`, not ≈ 41.67 as the
claim states: the difference with 41.67 exceeds 3. -/
theorem c1_counterexample :
    riskScoreOf (analyze_loan_risk loanA) = some 45
      ∧ (45 : ℚ) ≠ 4167 / 100 ∧ 4167 / 100 + 3 < (45 : ℚ) := by decide

/-- C1 (amended): `scoreRisk(5000, 12, 10)` succeeds with riskScore = 45
(category "Medium", approval recommended since 45 < 50), and
`scoreRisk(20000, 36, 5)` succeeds with riskScore = 95, category "High",
approval not recommended — exactly as the claim states except that the first
riskScore is 45, not ≈ 41.67. -/
theorem c1_amended :
    (riskScoreOf (analyze_loan_risk loanA) = some 45
        ∧ categoryOf (analyze_loan_risk loanA) = some "Medium"
        ∧ approvalOf (analyze_loan_risk loanA) = some true)
      ∧ (riskScoreOf (analyze_loan_risk loanB) = some 95
        ∧ categoryOf (analyze_loan_risk loanB) = some "High"
        ∧ approvalOf (analyze_loan_risk loanB) = some false) := by decide

/-- C2 counterexample: for `amount=1200, term_months=12, interest_rate=0` the
claim predicts a success result with `monthlyPayment = 1200/12 = 100`, but the
code has no zero-rate fallback: the amortization line evaluates `0.0 / 0.0`,
which raises `ZeroDivisionError`, and the handler returns the error dict. -/
theorem c2_counterexample :
    analyze_loan_risk ⟨some (.num 1200), some (.num 12), some (.num 0)⟩
      = .err "Error analyzing loan risk: float division by zero" := by decide

/-- C2 (amended): for every loan input whose three required fields are present
and numeric with `interest_rate = 0`, `analyze_loan_risk` returns the
`float division by zero` error dict (there is no `amount / termMonths`
fallback), for every amount and every term. -/
theorem c2_amended (a t : ℚ) :
    analyze_loan_risk ⟨some (.num a), some (.num t), some (.num 0)⟩
      = .err "Error analyzing loan risk: float division by zero" := by
  simp only [analyze_loan_risk, floatOf, intOf]
  norm_num

/-- C9 counterexample: the fields `amount=-100000, term_months=12,
interest_rate=10` are present and numeric, yet the code returns a success
result with `riskScore = -480`, far outside `[0, 100]`
(`amount_factor = min(1, -10) = -10`). -/
theorem c9_counterexample :
    riskScoreOf (analyze_loan_risk ⟨some (.num (-100000)), some (.num 12), some (.num 10)⟩)
      = some (-480) ∧ ((-480 : ℚ) < 0) := by decide

/-- C9 (amended): for every input whose required fields are present, numeric and
nonnegative, every success result of `analyze_loan_risk` has
`riskScore ∈ [0, 100]`, and its category is "Low"/"Medium"/"High" exactly
according to the 30/70 thresholds. -/
theorem c9_amended (a i : ℚ) (t : ℤ) (ha : 0 ≤ a) (ht : 0 ≤ t) (hi : 0 ≤ i)
    (r : RiskResult)
    (hr : analyze_loan_risk ⟨some (.num a), some (.num (t : ℚ)), some (.num i)⟩ = .ok r) :
    0 ≤ r.risk_score ∧ r.risk_score ≤ 100
      ∧ r.risk_category
          = (if r.risk_score < 30 then "Low"
             else if r.risk_score < 70 then "Medium" else "High") := by
  have htr : ratTrunc (t : ℚ) = t := by
    unfold ratTrunc
    rcases le_or_lt 0 (t : ℚ) with h | h
    · rw [if_pos h, Int.floor_intCast]
    · rw [if_neg (not_le.mpr h), Int.ceil_intCast]
  have haf0 : (0 : ℚ) ≤ min 1 (a / 10000) :=
    le_min (by norm_num) (by positivity)
  have haf1 : min 1 (a / 10000) ≤ 1 := min_le_left _ _
  have htf0 : (0 : ℚ) ≤ min 1 ((t : ℚ) / 36) :=
    le_min (by norm_num) (by positivity)
  have htf1 : min 1 ((t : ℚ) / 36) ≤ 1 := min_le_left _ _
  have hif0 : (0 : ℚ) ≤ max 0 (1 - i / 20) := le_max_left _ _
  have hif1 : max 0 (1 - i / 20) ≤ 1 := by
    have : (0 : ℚ) ≤ i / 20 := by positivity
    exact max_le (by norm_num) (by linarith)
  revert hr
  show (if _ then _ else _) = _ → _
  split
  · intro hr
    exact absurd hr (by simp)
  · show (if _ then _ else _) = _ → _
    split
    · intro hr
      exact absurd hr (by simp)
    · intro hr
      rw [RResult.ok.injEq] at hr
      subst hr
      rw [htr]
      refine ⟨by linarith, by linarith, rfl⟩

/-- C9 witness: the theorem applied at `amount=0, term_months=1,
interest_rate=20`, whose success result has `riskScore = 5/6 ∈ [0, 100]`. -/
theorem c9_witness :
    (0 : ℚ) ≤ 5 / 6 ∧ (5 / 6 : ℚ) ≤ 100 := by
  have h := c9_amended 0 20 1 (by norm_num) (by norm_num) (by norm_num)
    ⟨5 / 6, "Low", true, 0, 0, 0⟩ (by decide)
  exact ⟨h.1, h.2.1⟩

/-- A required risk-scoring field is absent from the mapping. -/
def MissingInput (d : LoanData) : Prop :=
  d.amount = none ∨ d.term_months = none ∨ d.interest_rate = none

/-- A required risk-scoring field is present but not convertible to a number
(`float()` / `int()` raises `ValueError` on it). -/
def NonNumericInput (d : LoanData) : Prop :=
  (∃ v, d.amount = some v ∧ floatOf v = none)
    ∨ (∃ v, d.term_months = some v ∧ intOf v = none)
    ∨ (∃ v, d.interest_rate = some v ∧ floatOf v = none)

/-- The `term_months` field converts to the integer 0. -/
def ZeroTermInput (d : LoanData) : Prop :=
  ∃ v, d.term_months = some v ∧ intOf v = some 0

/-- C10: whenever a required field is missing, or a present field is not
convertible to a number, or the term converts to 0 months (making the
amortization denominator `(1+r)^0 - 1 = 0`), `analyze_loan_risk` returns the
structured error dict — the failure is delivered as a value, no exception
escapes. -/
theorem c10_error_paths (d : LoanData)
    (h : MissingInput d ∨ NonNumericInput d ∨ ZeroTermInput d) :
    isErr (analyze_loan_risk d) = true := by
  obtain ⟨oa, ot, oi⟩ := d
  cases oa with
  | none => rfl
  | some va =>
    cases ot with
    | none => rfl
    | some vt =>
      cases oi with
      | none => rfl
      | some vi =>
        rcases h with h | h | h
        · rcases h with h | h | h <;> exact absurd h (by simp)
        · rcases h with ⟨v, hv, hf⟩ | ⟨v, hv, hf⟩ | ⟨v, hv, hf⟩ <;>
            (rw [Option.some.injEq] at hv; subst hv) <;>
            cases va <;> cases vt <;> cases vi <;>
            simp_all [floatOf, intOf, analyze_loan_risk, isErr]
        · obtain ⟨v, hv, hf⟩ := h
          rw [Option.some.injEq] at hv
          subst hv
          cases va with
          | text s => rfl
          | num qa =>
            cases vt with
            | text s => exact absurd hf (by simp [intOf])
            | num qt =>
              simp only [intOf, Option.some.injEq] at hf
              cases vi with
              | text s => rfl
              | num qi =>
                simp only [analyze_loan_risk, floatOf, intOf, hf]
                norm_num [isErr]

/-- C10 witness: the theorem applied at `amount=5000, term_months=0,
interest_rate=10` — a zero-term input — which yields the error dict. -/
theorem c10_witness :
    isErr (analyze_loan_risk ⟨some (.num 5000), some (.num 0), some (.num 10)⟩) = true :=
  c10_error_paths _ (.inr (.inr ⟨.num 0, rfl, by decide⟩))

/-! ## Tabular model (`excel_processor.py`)

A pandas cell is a tagged value; a timestamp is modelled at month granularity
(an integer month index, `12 * year + (month - 1)`), since every verified
property observes dates only through their calendar month.  A column carries
its pandas dtype tag together with its cells; a frame is the ordered list of
named columns of `self.data`, and `Proc` is the `ExcelProcessor` state after
`load_data` (`self.columns` is captured at load time and never updated). -/

/-- A cell value: number, text, timestamp (month index), or missing (NaN/NaT/None). -/
inductive CVal
  | num (q : ℚ)
  | str (s : String)
  | date (m : ℤ)
  | missing
  deriving DecidableEq, Repr

/-- The pandas dtype of a column: numeric, datetime64, or object/string. -/
inductive DType
  | number
  | datetime
  | text
  deriving DecidableEq, Repr

/-- A named pandas column: dtype tag plus the row-ordered cells. -/
structure Column where
  dtype : DType
  cells : List CVal
  deriving DecidableEq, Repr

/-- The non-missing numeric values of a column (`series.dropna()` on a numeric
column). -/
def numCells (c : Column) : List ℚ :=
  c.cells.filterMap fun v => match v with | .num q => some q | _ => none

/-- `pd.api.types.is_numeric_dtype`. -/
def isNumericDtype (c : Column) : Bool := c.dtype == .number

/-- Per-column body of `ExcelProcessor.detect_data_types` (excel_processor.py
lines 74-84): a numeric column is `integer` when every non-missing value equals
its `astype(int)` truncation (`all` of an empty comparison is `True`), else
`float`; a datetime column is `datetime`; anything else is `string`. -/
def detectColType (c : Column) : String :=
  match c.dtype with
  | .number =>
      if (numCells c).all (fun q => decide (q = (ratTrunc q : ℚ))) then "integer" else "float"
  | .datetime => "datetime"
  | .text => "string"

/-- C7: `detect_data_types` classifies a column as integer iff it is numeric and
every non-missing value, treated as a float, equals its truncation to a whole
number; in particular an all-missing numeric column is classified integer
(the condition holds vacuously over the empty list). -/
theorem c7_integer_iff (c : Column) :
    (detectColType c = "integer"
        ↔ c.dtype = .number ∧ ∀ q ∈ numCells c, q = (ratTrunc q : ℚ))
      ∧ (c.dtype = .number → numCells c = [] → detectColType c = "integer") := by
  obtain ⟨dt, cells⟩ := c
  have hnum : ∀ cs : List CVal, detectColType ⟨.number, cs⟩
      = (if (numCells ⟨.number, cs⟩).all (fun q => decide (q = (ratTrunc q : ℚ)))
         then "integer" else "float") := fun _ => rfl
  cases dt with
  | number =>
    constructor
    · rw [hnum]
      by_cases hall : (numCells ⟨DType.number, cells⟩).all
          (fun q => decide (q = (ratTrunc q : ℚ))) = true
      · rw [if_pos hall]
        simp only [List.all_eq_true, decide_eq_true_eq] at hall
        exact iff_of_true rfl ⟨rfl, hall⟩
      · rw [if_neg hall]
        refine iff_of_false (by decide) ?_
        rintro ⟨-, hq⟩
        simp only [List.all_eq_true, decide_eq_true_eq] at hall
        exact hall hq
    · intro _ hempty
      rw [hnum, hempty]
      rfl
  | datetime =>
    exact ⟨iff_of_false (by simp [detectColType]) (fun h => by cases h.1),
      fun h => absurd h (by simp)⟩
  | text =>
    exact ⟨iff_of_false (by simp [detectColType]) (fun h => by cases h.1),
      fun h => absurd h (by simp)⟩

/-- C7 witness: a numeric column whose single cell is missing is classified
`integer`. -/
theorem c7_witness : detectColType ⟨.number, [.missing]⟩ = "integer" :=
  (c7_integer_iff ⟨.number, [.missing]⟩).2 rfl rfl

/-! ## Histogram (`analyze_financial_data`, excel_processor.py lines 145-152) -/

/-- Minimum of a list over a linear order, `none` on the empty list (the `min`
end of `np.histogram`'s automatic range, and the earliest bin of a pandas
time grouper). -/
def listMin {α : Type} [LinearOrder α] : List α → Option α
  | [] => none
  | x :: xs => some (match listMin xs with | none => x | some m => min x m)

/-- Maximum of a list over a linear order, `none` on the empty list. -/
def listMax {α : Type} [LinearOrder α] : List α → Option α
  | [] => none
  | x :: xs => some (match listMax xs with | none => x | some m => max x m)

theorem listMin_some_of_cons {α : Type} [LinearOrder α] (y : α) (ys : List α) :
    listMin (y :: ys) ≠ none := by
  simp only [listMin]
  exact fun h => by cases h

theorem listMin_le {α : Type} [LinearOrder α] {xs : List α} {m : α} (h : listMin xs = some m) :
    ∀ x ∈ xs, m ≤ x := by
  induction xs generalizing m with
  | nil => cases h
  | cons y ys ih =>
    intro x hx
    simp only [listMin, Option.some.injEq] at h
    cases hys : listMin ys with
    | none =>
      have hysnil : ys = [] := by
        cases ys with
        | nil => rfl
        | cons z zs => exact absurd hys (listMin_some_of_cons z zs)
      subst hysnil
      have h' : y = m := h
      rcases List.mem_cons.mp hx with hx1 | hx1
      · subst hx1
        exact le_of_eq h'.symm
      · cases hx1
    | some m0 =>
      rw [hys] at h
      have h' : min y m0 = m := h
      rcases List.mem_cons.mp hx with hx1 | hx1
      · subst hx1
        rw [← h']
        exact min_le_left _ _
      · rw [← h']
        exact le_trans (min_le_right _ _) (ih hys x hx1)

theorem listMax_some_of_cons {α : Type} [LinearOrder α] (y : α) (ys : List α) :
    listMax (y :: ys) ≠ none := by
  simp only [listMax]
  exact fun h => by cases h

theorem le_listMax {α : Type} [LinearOrder α] {xs : List α} {m : α} (h : listMax xs = some m) :
    ∀ x ∈ xs, x ≤ m := by
  induction xs generalizing m with
  | nil => cases h
  | cons y ys ih =>
    intro x hx
    simp only [listMax, Option.some.injEq] at h
    cases hys : listMax ys with
    | none =>
      have hysnil : ys = [] := by
        cases ys with
        | nil => rfl
        | cons z zs => exact absurd hys (listMax_some_of_cons z zs)
      subst hysnil
      have h' : y = m := h
      rcases List.mem_cons.mp hx with hx1 | hx1
      · subst hx1
        exact le_of_eq h'
      · cases hx1
    | some m0 =>
      rw [hys] at h
      have h' : max y m0 = m := h
      rcases List.mem_cons.mp hx with hx1 | hx1
      · subst hx1
        rw [← h']
        exact le_max_left _ _
      · rw [← h']
        exact le_trans (ih hys x hx1) (le_max_right _ _)

/-- The i-th bin edge of `np.histogram(xs, bins=5)` over the range `[lo, hi]`:
`lo + i * (hi - lo) / 5`. -/
def histEdge (lo hi : ℚ) (i : ℕ) : ℚ := lo + i * (hi - lo) / 5

/-- Membership of `x` in bin `i` of the 5-bin histogram: numpy counts with
half-open intervals `[e_i, e_{i+1})` except the last bin `[e_4, e_5]`, which is
closed on both ends so the maximum is counted. -/
def binPred (lo hi : ℚ) (i : ℕ) (x : ℚ) : Prop :=
  if i < 4 then histEdge lo hi i ≤ x ∧ x < histEdge lo hi (i + 1)
  else histEdge lo hi 4 ≤ x ∧ x ≤ histEdge lo hi 5

instance instDecidableBinPred (lo hi : ℚ) (i : ℕ) (x : ℚ) : Decidable (binPred lo hi i x) := by
  unfold binPred
  infer_instance

theorem binPred_iff_lt (lo hi x : ℚ) (i : ℕ) (h : i < 4) :
    binPred lo hi i x ↔ histEdge lo hi i ≤ x ∧ x < histEdge lo hi (i + 1) := by
  unfold binPred
  rw [if_pos h]

theorem binPred_iff_last (lo hi x : ℚ) :
    binPred lo hi 4 x ↔ histEdge lo hi 4 ≤ x ∧ x ≤ histEdge lo hi 5 := by
  unfold binPred
  rw [if_neg (by norm_num)]

theorem histEdge_zero (lo hi : ℚ) : histEdge lo hi 0 = lo := by
  unfold histEdge
  push_cast
  ring

theorem histEdge_five (lo hi : ℚ) : histEdge lo hi 5 = hi := by
  unfold histEdge
  push_cast
  ring

theorem histEdge_le_histEdge (lo hi : ℚ) (hlt : lo < hi) {i j : ℕ} (hij : i ≤ j) :
    histEdge lo hi i ≤ histEdge lo hi j := by
  unfold histEdge
  have hc : (i : ℚ) ≤ (j : ℚ) := by exact_mod_cast hij
  have h0 : (0 : ℚ) < hi - lo := by linarith
  have := mul_le_mul_of_nonneg_right hc (le_of_lt h0)
  linarith

/-- The sampling range of `np.histogram`: `[min, max]` of the data, widened by
0.5 on each side when `min == max`, and numpy's default `[0, 1]` for empty data. -/
def histRange (xs : List ℚ) : ℚ × ℚ :=
  match listMin xs, listMax xs with
  | some a, some b => if a = b then (a - 1/2, b + 1/2) else (a, b)
  | _, _ => (0, 1)

/-- Two-digit zero-padded decimal rendering of a natural number below 100. -/
def pad2 (n : ℕ) : String := if n < 10 then "0" ++ toString n else toString n

/-- Round half to even, the rounding used by Python's fixed-point float
formatting. -/
def roundHalfEven (x : ℚ) : ℤ :=
  if x - ⌊x⌋ = 1/2 then (if ⌊x⌋ % 2 = 0 then ⌊x⌋ else ⌊x⌋ + 1) else round x

/-- Python `f"{v:.2f}"` on an exact rational (a negative value rounding to zero
is rendered here without its sign; no claim depends on that corner). -/
def fmt2 (q : ℚ) : String :=
  let n := roundHalfEven (q * 100)
  (if n < 0 then "-" else "")
    ++ toString (n.natAbs / 100) ++ "." ++ pad2 (n.natAbs % 100)

/-- Histogram bin labels `f"{bin_edges[i]:.2f}-{bin_edges[i+1]:.2f}"`
(excel_processor.py line 148). -/
def histLabels (xs : List ℚ) : List String :=
  (List.range 5).map fun i =>
    fmt2 (histEdge (histRange xs).1 (histRange xs).2 i)
      ++ "-" ++ fmt2 (histEdge (histRange xs).1 (histRange xs).2 (i + 1))

/-- Histogram bin counts, `np.histogram(series.dropna(), bins=5)`
(excel_processor.py line 147). -/
def histCounts (xs : List ℚ) : List ℕ :=
  (List.range 5).map fun i =>
    xs.countP fun x => decide (binPred (histRange xs).1 (histRange xs).2 i x)

theorem binPred_indicator (lo hi x : ℚ) (hlt : lo < hi) (h1 : lo ≤ x) (h2 : x ≤ hi) :
    ((if decide (binPred lo hi 0 x) = true then (1 : ℕ) else 0)
      + ((if decide (binPred lo hi 1 x) = true then (1 : ℕ) else 0)
        + ((if decide (binPred lo hi 2 x) = true then (1 : ℕ) else 0)
          + ((if decide (binPred lo hi 3 x) = true then (1 : ℕ) else 0)
            + ((if decide (binPred lo hi 4 x) = true then (1 : ℕ) else 0) + 0))))) = 1 := by
  have hmono : ∀ {i j : ℕ}, i ≤ j → histEdge lo hi i ≤ histEdge lo hi j :=
    fun {i j} => histEdge_le_histEdge lo hi hlt
  simp only [decide_eq_true_eq]
  rcases lt_or_le x (histEdge lo hi 1) with c1 | c1
  · have p0 : binPred lo hi 0 x :=
      (binPred_iff_lt lo hi x 0 (by norm_num)).mpr ⟨(histEdge_zero lo hi).symm ▸ h1, c1⟩
    have n1 : ¬binPred lo hi 1 x := fun hp =>
      absurd ((binPred_iff_lt lo hi x 1 (by norm_num)).mp hp).1 (not_le.mpr c1)
    have n2 : ¬binPred lo hi 2 x := fun hp => by
      have := ((binPred_iff_lt lo hi x 2 (by norm_num)).mp hp).1
      have := hmono (show 1 ≤ 2 by norm_num)
      linarith
    have n3 : ¬binPred lo hi 3 x := fun hp => by
      have := ((binPred_iff_lt lo hi x 3 (by norm_num)).mp hp).1
      have := hmono (show 1 ≤ 3 by norm_num)
      linarith
    have n4 : ¬binPred lo hi 4 x := fun hp => by
      have := ((binPred_iff_last lo hi x).mp hp).1
      have := hmono (show 1 ≤ 4 by norm_num)
      linarith
    rw [if_pos p0, if_neg n1, if_neg n2, if_neg n3, if_neg n4]
  · rcases lt_or_le x (histEdge lo hi 2) with c2 | c2
    · have p1 : binPred lo hi 1 x :=
        (binPred_iff_lt lo hi x 1 (by norm_num)).mpr ⟨c1, c2⟩
      have n0 : ¬binPred lo hi 0 x := fun hp =>
        absurd ((binPred_iff_lt lo hi x 0 (by norm_num)).mp hp).2 (not_lt.mpr c1)
      have n2 : ¬binPred lo hi 2 x := fun hp =>
        absurd ((binPred_iff_lt lo hi x 2 (by norm_num)).mp hp).1 (not_le.mpr c2)
      have n3 : ¬binPred lo hi 3 x := fun hp => by
        have := ((binPred_iff_lt lo hi x 3 (by norm_num)).mp hp).1
        have := hmono (show 2 ≤ 3 by norm_num)
        linarith
      have n4 : ¬binPred lo hi 4 x := fun hp => by
        have := ((binPred_iff_last lo hi x).mp hp).1
        have := hmono (show 2 ≤ 4 by norm_num)
        linarith
      rw [if_pos p1, if_neg n0, if_neg n2, if_neg n3, if_neg n4]
    · rcases lt_or_le x (histEdge lo hi 3) with c3 | c3
      · have p2 : binPred lo hi 2 x :=
          (binPred_iff_lt lo hi x 2 (by norm_num)).mpr ⟨c2, c3⟩
        have n0 : ¬binPred lo hi 0 x := fun hp => by
          have := ((binPred_iff_lt lo hi x 0 (by norm_num)).mp hp).2
          have := hmono (show 1 ≤ 2 by norm_num)
          linarith
        have n1 : ¬binPred lo hi 1 x := fun hp =>
          absurd ((binPred_iff_lt lo hi x 1 (by norm_num)).mp hp).2 (not_lt.mpr c2)
        have n3 : ¬binPred lo hi 3 x := fun hp =>
          absurd ((binPred_iff_lt lo hi x 3 (by norm_num)).mp hp).1 (not_le.mpr c3)
        have n4 : ¬binPred lo hi 4 x := fun hp => by
          have := ((binPred_iff_last lo hi x).mp hp).1
          have := hmono (show 3 ≤ 4 by norm_num)
          linarith
        rw [if_pos p2, if_neg n0, if_neg n1, if_neg n3, if_neg n4]
      · rcases lt_or_le x (histEdge lo hi 4) with c4 | c4
        · have p3 : binPred lo hi 3 x :=
            (binPred_iff_lt lo hi x 3 (by norm_num)).mpr ⟨c3, c4⟩
          have n0 : ¬binPred lo hi 0 x := fun hp => by
            have := ((binPred_iff_lt lo hi x 0 (by norm_num)).mp hp).2
            have := hmono (show 1 ≤ 3 by norm_num)
            linarith
          have n1 : ¬binPred lo hi 1 x := fun hp => by
            have := ((binPred_iff_lt lo hi x 1 (by norm_num)).mp hp).2
            have := hmono (show 2 ≤ 3 by norm_num)
            linarith
          have n2 : ¬binPred lo hi 2 x := fun hp =>
            absurd ((binPred_iff_lt lo hi x 2 (by norm_num)).mp hp).2 (not_lt.mpr c3)
          have n4 : ¬binPred lo hi 4 x := fun hp =>
            absurd ((binPred_iff_last lo hi x).mp hp).1 (not_le.mpr c4)
          rw [if_pos p3, if_neg n0, if_neg n1, if_neg n2, if_neg n4]
        · have p4 : binPred lo hi 4 x :=
            (binPred_iff_last lo hi x).mpr ⟨c4, (histEdge_five lo hi).symm ▸ h2⟩
          have n0 : ¬binPred lo hi 0 x := fun hp => by
            have := ((binPred_iff_lt lo hi x 0 (by norm_num)).mp hp).2
            have := hmono (show 1 ≤ 4 by norm_num)
            linarith
          have n1 : ¬binPred lo hi 1 x := fun hp => by
            have := ((binPred_iff_lt lo hi x 1 (by norm_num)).mp hp).2
            have := hmono (show 2 ≤ 4 by norm_num)
            linarith
          have n2 : ¬binPred lo hi 2 x := fun hp => by
            have := ((binPred_iff_lt lo hi x 2 (by norm_num)).mp hp).2
            have := hmono (show 3 ≤ 4 by norm_num)
            linarith
          have n3 : ¬binPred lo hi 3 x := fun hp =>
            absurd ((binPred_iff_lt lo hi x 3 (by norm_num)).mp hp).2 (not_lt.mpr c4)
          rw [if_pos p4, if_neg n0, if_neg n1, if_neg n2, if_neg n3]

theorem countP_bins_sum (lo hi : ℚ) (hlt : lo < hi) (xs : List ℚ) :
    (∀ x ∈ xs, lo ≤ x ∧ x ≤ hi) →
      ((List.range 5).map fun i => xs.countP fun x => decide (binPred lo hi i x)).sum
        = xs.length := by
  have h5 : List.range 5 = [0, 1, 2, 3, 4] := rfl
  induction xs with
  | nil => intro; rfl
  | cons a as ih =>
    intro hb
    have hb' : ∀ x ∈ as, lo ≤ x ∧ x ≤ hi := fun x hx => hb x (List.mem_cons_of_mem a hx)
    have ha := hb a (List.mem_cons_self a as)
    have hind := binPred_indicator lo hi a hlt ha.1 ha.2
    have has := ih hb'
    rw [h5] at has ⊢
    simp only [List.map_cons, List.map_nil, List.sum_cons, List.sum_nil,
      List.countP_cons, List.length_cons] at has ⊢
    omega

theorem histCounts_sum (xs : List ℚ) : (histCounts xs).sum = xs.length := by
  cases xs with
  | nil => rfl
  | cons y ys =>
    cases hmin : listMin (y :: ys) with
    | none => exact absurd hmin (listMin_some_of_cons y ys)
    | some a =>
      cases hmax : listMax (y :: ys) with
      | none => exact absurd hmax (listMax_some_of_cons y ys)
      | some b =>
        have hle := listMin_le hmin
        have hge := le_listMax hmax
        have hrdef : histRange (y :: ys)
            = if a = b then (a - 1/2, b + 1/2) else (a, b) := by
          unfold histRange
          rw [hmin, hmax]
        by_cases hab : a = b
        · subst hab
          rw [if_pos rfl] at hrdef
          have hlt : a - 1/2 < a + 1/2 := by linarith
          have hb : ∀ x ∈ y :: ys, a - 1/2 ≤ x ∧ x ≤ a + 1/2 := fun x hx =>
            ⟨by have := hle x hx; linarith, by have := hge x hx; linarith⟩
          unfold histCounts
          rw [hrdef]
          exact countP_bins_sum _ _ hlt _ hb
        · rw [if_neg hab] at hrdef
          have hay : a ≤ y := hle y (List.mem_cons_self y ys)
          have hyb : y ≤ b := hge y (List.mem_cons_self y ys)
          have hlt : a < b := lt_of_le_of_ne (le_trans hay hyb) hab
          have hb : ∀ x ∈ y :: ys, a ≤ x ∧ x ≤ b := fun x hx => ⟨hle x hx, hge x hx⟩
          unfold histCounts
          rw [hrdef]
          exact countP_bins_sum _ _ hlt _ hb

/-- C8: for every (amount-role) column the histogram has exactly 5 bins whose
counts sum exactly to the number of non-missing values; and whenever the
non-missing minimum differs from the maximum, the bin edges partition
`[min, max]` into five equal-width fifths, each bin is labeled
`"{lowEdge:.2f}-{highEdge:.2f}"`, and counting uses half-open intervals except
the last bin, which is closed on both ends. -/
theorem c8_histogram (c : Column) :
    ((histCounts (numCells c)).length = 5
      ∧ (histLabels (numCells c)).length = 5
      ∧ (histCounts (numCells c)).sum = (numCells c).length)
    ∧ ∀ lo hi, listMin (numCells c) = some lo → listMax (numCells c) = some hi →
        lo ≠ hi →
        histCounts (numCells c)
            = [(numCells c).countP fun x => decide (binPred lo hi 0 x),
               (numCells c).countP fun x => decide (binPred lo hi 1 x),
               (numCells c).countP fun x => decide (binPred lo hi 2 x),
               (numCells c).countP fun x => decide (binPred lo hi 3 x),
               (numCells c).countP fun x => decide (binPred lo hi 4 x)]
          ∧ histLabels (numCells c)
            = [fmt2 (histEdge lo hi 0) ++ "-" ++ fmt2 (histEdge lo hi 1),
               fmt2 (histEdge lo hi 1) ++ "-" ++ fmt2 (histEdge lo hi 2),
               fmt2 (histEdge lo hi 2) ++ "-" ++ fmt2 (histEdge lo hi 3),
               fmt2 (histEdge lo hi 3) ++ "-" ++ fmt2 (histEdge lo hi 4),
               fmt2 (histEdge lo hi 4) ++ "-" ++ fmt2 (histEdge lo hi 5)]
          ∧ histEdge lo hi 0 = lo ∧ histEdge lo hi 5 = hi
          ∧ ∀ i : ℕ, histEdge lo hi (i + 1) - histEdge lo hi i = (hi - lo) / 5 := by
  refine ⟨⟨by simp [histCounts], by simp [histLabels], histCounts_sum _⟩, ?_⟩
  intro lo hi hmin hmax hne
  have hr : histRange (numCells c) = (lo, hi) := by
    unfold histRange
    rw [hmin, hmax]
    simp [hne]
  refine ⟨?_, ?_, histEdge_zero lo hi, histEdge_five lo hi, ?_⟩
  · unfold histCounts
    rw [hr]
    rfl
  · unfold histLabels
    rw [hr]
    rfl
  · intro i
    unfold histEdge
    push_cast
    ring

/-- C8 witness: the histogram theorem applied to a numeric column holding 0, 10
and a missing cell: the two bin-edge ends are the min 0 and the max 10, and the
counts sum to 2, the number of non-missing values. -/
theorem c8_witness :
    histEdge 0 10 0 = 0 ∧ histEdge 0 10 5 = 10
      ∧ (histCounts (numCells ⟨.number, [.num 0, .num 10, .missing]⟩)).sum = 2 := by
  have h := c8_histogram ⟨.number, [.num 0, .num 10, .missing]⟩
  have h2 := h.2 0 10 (by decide) (by decide) (by norm_num)
  exact ⟨h2.2.2.1, h2.2.2.2.1, h.1.2.2.trans rfl⟩

/-! ## Monthly time series (`analyze_financial_data`, excel_processor.py
lines 154-187)

A parsed timestamp is modelled by its month index (`12 * year + month - 1`);
a row restricted to one (date column, amount column) pair is the pair of the
parsed month (`none` = NaT) and the amount cell (`none` = NaN). -/

/-- `timestamp.strftime("%Y-%m")` of a month index. -/
def monthLabel (m : ℤ) : String :=
  toString (m.fdiv 12) ++ "-" ++ pad2 ((m.emod 12).toNat + 1)

/-- One row of a (date, amount) column pair: parsed month and amount. -/
abbrev DARow := Option ℤ × Option ℚ

/-- The sum of one monthly group: total of the non-missing amounts of the rows
whose parsed date falls in month `m` (the pandas sum of an empty or all-missing
group is 0). -/
def monthSum (rows : List DARow) (m : ℤ) : ℚ :=
  (rows.filterMap fun r => if r.1 = some m then r.2 else none).sum

/-- `self.data.groupby(pd.Grouper(key=date_col, freq='M'))[amount_col].sum()`
(excel_processor.py line 179).  The time grouper builds a regular month-end bin
index running from the month of the earliest to the month of the latest
non-missing timestamp — months with no rows are present as empty bins, whose
sum is 0 — and rows whose date is NaT belong to no bin.  The result is the
chronological list of (month, sum) pairs. -/
def monthlyGroupSum (rows : List DARow) : List (ℤ × ℚ) :=
  match listMin (rows.filterMap Prod.fst), listMax (rows.filterMap Prod.fst) with
  | some lo, some hi =>
      (List.range ((hi - lo).toNat + 1)).map fun i : ℕ => (lo + i, monthSum rows (lo + i))
  | _, _ => []

/-- The `'dates'`/`'values'` payload stored under
`f"{orig_date_col}_{amount_col}_monthly"` (excel_processor.py lines 181-184). -/
def timeSeriesEntry (rows : List DARow) : List String × List ℚ :=
  ((monthlyGroupSum rows).map fun p => monthLabel p.1,
   (monthlyGroupSum rows).map fun p => p.2)

/-- C3 counterexample: two rows dated month 0 and month 2.  No row falls in
month 1, yet the series contains an entry for month 1 (with sum 0): pandas'
month grouper zero-fills interior months, contradicting the claim that an entry
exists only for months containing at least one row. -/
theorem c3_counterexample :
    (monthlyGroupSum [(some 0, some 5), (some 2, some 7)]).map Prod.fst = [0, 1, 2]
      ∧ (∀ r ∈ [((some 0 : Option ℤ), (some 5 : Option ℚ)), (some 2, some 7)],
          r.1 ≠ some 1)
      ∧ monthlyGroupSum [(some 0, some 5), (some 2, some 7)]
          = [(0, 5), (1, 0), (2, 7)] := by decide

/-- C3 (amended): for a (date-role, amount-role) column pair whose date column
has at least one parseable timestamp (witnessed by the observed minimum `lo`
and maximum `hi` month), the monthly series contains exactly one entry for
every calendar month from `lo` to `hi` inclusive — months containing no row
included, with value 0 — in strictly chronological order; every month that
contains a row appears; each entry's value is the sum of the amount column over
that month's rows; and the emitted labels are the `%Y-%m` renderings of the
months in order. -/
theorem c3_monthly_series (rows : List DARow) (lo hi : ℤ)
    (hmin : listMin (rows.filterMap Prod.fst) = some lo)
    (hmax : listMax (rows.filterMap Prod.fst) = some hi) :
    ((monthlyGroupSum rows).map Prod.fst
        = (List.range ((hi - lo).toNat + 1)).map fun i : ℕ => lo + (i : ℤ))
      ∧ (∀ p ∈ monthlyGroupSum rows, p.2 = monthSum rows p.1)
      ∧ ((monthlyGroupSum rows).map Prod.fst).Pairwise (· < ·)
      ∧ (∀ m : ℤ, (∃ r ∈ rows, r.1 = some m) → m ∈ (monthlyGroupSum rows).map Prod.fst)
      ∧ (∀ m : ℤ, lo ≤ m → m ≤ hi → (∀ r ∈ rows, r.1 ≠ some m) →
          (m, 0) ∈ monthlyGroupSum rows)
      ∧ (timeSeriesEntry rows).1 = (monthlyGroupSum rows).map (fun p => monthLabel p.1)
      ∧ (timeSeriesEntry rows).2 = (monthlyGroupSum rows).map (fun p => p.2) := by
  have hgs : monthlyGroupSum rows
      = (List.range ((hi - lo).toNat + 1)).map fun i : ℕ => (lo + i, monthSum rows (lo + i)) := by
    unfold monthlyGroupSum
    rw [hmin, hmax]
  have hfst : (monthlyGroupSum rows).map Prod.fst
      = (List.range ((hi - lo).toNat + 1)).map fun i : ℕ => lo + (i : ℤ) := by
    rw [hgs, List.map_map]
    rfl
  refine ⟨hfst, ?_, ?_, ?_, ?_, rfl, rfl⟩
  · intro p hp
    rw [hgs] at hp
    obtain ⟨i, -, rfl⟩ := List.mem_map.mp hp
    rfl
  · rw [hfst, List.pairwise_map]
    have hmono : ∀ a b : ℕ, a < b → lo + (a : ℤ) < lo + (b : ℤ) := fun a b h => by omega
    exact (List.pairwise_lt_range _).imp fun {a b} h => hmono a b h
  · rintro m ⟨r, hr, hm⟩
    have hmem : m ∈ rows.filterMap Prod.fst := List.mem_filterMap.mpr ⟨r, hr, hm⟩
    have h1 := listMin_le hmin m hmem
    have h2 := le_listMax hmax m hmem
    have hi1 : (m - lo).toNat ∈ List.range ((hi - lo).toNat + 1) :=
      List.mem_range.mpr (by omega)
    have hi2 : lo + (((m - lo).toNat : ℕ) : ℤ) = m := by omega
    rw [hfst]
    exact List.mem_map.mpr ⟨(m - lo).toNat, hi1, hi2⟩
  · intro m hlom hmhi hnone
    have hzero : monthSum rows m = 0 := by
      unfold monthSum
      rw [List.filterMap_eq_nil_iff.mpr fun r hr => by rw [if_neg (hnone r hr)]]
      rfl
    have hi1 : (m - lo).toNat ∈ List.range ((hi - lo).toNat + 1) :=
      List.mem_range.mpr (by omega)
    have hm' : lo + (((m - lo).toNat : ℕ) : ℤ) = m := by omega
    rw [hgs]
    refine List.mem_map.mpr ⟨(m - lo).toNat, hi1, ?_⟩
    show (lo + (((m - lo).toNat : ℕ) : ℤ),
        monthSum rows (lo + (((m - lo).toNat : ℕ) : ℤ))) = (m, 0)
    rw [hm', hzero]

/-- C3 witness: the amended theorem applied to rows dated months 3 and 5,
whose series spans the three months 3, 4, 5. -/
theorem c3_witness :
    (monthlyGroupSum [((some 3 : Option ℤ), (some 4 : Option ℚ)), (some 5, some 6)]).map
        Prod.fst
      = (List.range 3).map fun i : ℕ => 3 + (i : ℤ) :=
  (c3_monthly_series _ 3 5 (by decide) (by decide)).1

/-! ## Commission extraction (`extract_commission_data`, excel_processor.py
lines 190-258)

A row restricted to the chosen (first agent-role, first commission-role) column
pair: the agent cell, modelled as a string (`none` = missing), and the
commission cell (`none` = NaN).  The grouping, aggregation and ranking below
embed lines 222-248 of the source. -/

/-- One row of the (agent, commission) column pair. -/
abbrev AgRow := Option String × Option ℚ

/-- The group keys of `self.data.groupby(agent_col)`: the distinct non-missing
agent values in ascending order — pandas sorts group keys by default
(`sort=True`) and drops missing keys (the code's `pd.isna(agent)` check
re-drops them). -/
def agentKeys (rows : List AgRow) : List String :=
  List.insertionSort (· ≤ ·) (rows.filterMap Prod.fst).dedup

/-- The rows of the group with key `k`. -/
def groupRows (rows : List AgRow) (k : String) : List AgRow :=
  rows.filter fun r => r.1 == some k

/-- Per-agent aggregates (excel_processor.py lines 227-233): pandas `sum`,
`mean`, `max` and `min` skip missing commissions (`none` models the NaN they
produce on an all-missing group), while `commission_count` is `len(group)`,
the number of rows of the group. -/
structure AgentStats where
  total_commission : ℚ
  average_commission : Option ℚ
  commission_count : ℕ
  max_commission : Option ℚ
  min_commission : Option ℚ
  deriving DecidableEq, Repr

/-- The aggregates of one group (excel_processor.py lines 227-233). -/
def statsOf (g : List AgRow) : AgentStats :=
  let cs := g.filterMap Prod.snd
  { total_commission := cs.sum
    average_commission := if cs.length = 0 then none else some (cs.sum / cs.length)
    commission_count := g.length
    max_commission := listMax cs
    min_commission := listMin cs }

/-- `agent_commissions` (excel_processor.py lines 222-233), an association list
in pandas' group order: ascending agent key. -/
def agent_commissions (rows : List AgRow) : List (String × AgentStats) :=
  (agentKeys rows).map fun k => (k, statsOf (groupRows rows k))

/-- The comparison under `sorted(..., key=lambda x: x[1]['total_commission'],
reverse=True)`: `a` may precede `b` when `b`'s total is at most `a`'s. -/
def commissionGE (a b : String × AgentStats) : Prop :=
  b.2.total_commission ≤ a.2.total_commission

instance instDecCommissionGE : DecidableRel commissionGE := fun a b =>
  inferInstanceAs (Decidable (b.2.total_commission ≤ a.2.total_commission))

/-- `top_agents` (excel_processor.py lines 237-241): Python's `sorted` is a
stable sort, and a stable descending sort is exactly `insertionSort` with
`commissionGE`, which inserts each element after every earlier equal-total
element. -/
def topAgents (rows : List AgRow) : List (String × AgentStats) :=
  (List.insertionSort commissionGE (agent_commissions rows)).take 5

/-- `top_performers` (excel_processor.py lines 243-248): agent, total and
average of the top entries, in ranking order. -/
def top_performers (rows : List AgRow) : List (String × ℚ × Option ℚ) :=
  (topAgents rows).map fun p => (p.1, p.2.total_commission, p.2.average_commission)

/-- `total_commissions` (excel_processor.py line 255). -/
def total_commissions (rows : List AgRow) : ℚ :=
  ((agent_commissions rows).map fun p => p.2.total_commission).sum

/-- C4 counterexample: agent "A" has one commission of 10 and one missing
commission.  The claim says the count excludes missing commissions (so 1), but
the code reports `len(group) = 2`. -/
theorem c4_counterexample :
    agent_commissions [(some "A", some 10), (some "A", none)]
        = [("A", ⟨10, some 10, 2, some 10, some 10⟩)]
      ∧ ([((some "A" : Option String), (some (10:ℚ))), (some "A", none)].filterMap
          Prod.snd).length = 1
      ∧ (2 : ℕ) ≠ 1 := by decide

/-- C4 (amended): for every agent group, total, average, max and min are
computed over only the non-missing commissions of the group, but the reported
count is the number of rows of the group — rows with a missing commission are
included in the count (and in no other aggregate). -/
theorem c4_group_aggregates (rows : List AgRow) (k : String) (st : AgentStats)
    (h : (k, st) ∈ agent_commissions rows) :
    st.total_commission = ((groupRows rows k).filterMap Prod.snd).sum
      ∧ st.average_commission
          = (if ((groupRows rows k).filterMap Prod.snd).length = 0 then none
             else some (((groupRows rows k).filterMap Prod.snd).sum
               / ((groupRows rows k).filterMap Prod.snd).length))
      ∧ st.max_commission = listMax ((groupRows rows k).filterMap Prod.snd)
      ∧ st.min_commission = listMin ((groupRows rows k).filterMap Prod.snd)
      ∧ st.commission_count = (groupRows rows k).length
      ∧ ((groupRows rows k).filterMap Prod.snd).length ≤ st.commission_count := by
  obtain ⟨k', -, heq⟩ := List.mem_map.mp h
  rw [Prod.mk.injEq] at heq
  obtain ⟨rfl, rfl⟩ := heq
  exact ⟨rfl, rfl, rfl, rfl, rfl, List.length_filterMap_le _ _⟩

/-- C4 witness: the amended theorem applied to the two-row group of agent "A"
above: count 2, one non-missing commission. -/
theorem c4_witness :
    (⟨10, some 10, 2, some 10, some 10⟩ : AgentStats).commission_count
      = (groupRows [(some "A", some 10), (some "A", none)] "A").length :=
  (c4_group_aggregates [(some "A", some 10), (some "A", none)] "A"
    ⟨10, some 10, 2, some 10, some 10⟩ (by decide)).2.2.2.2.1

/-- The corrected top-performer ordering: strictly descending total commission,
with ties in ascending agent-key order (pandas' group order), not encounter
order. -/
def rLex (a b : String × AgentStats) : Prop :=
  b.2.total_commission < a.2.total_commission
    ∨ (a.2.total_commission = b.2.total_commission ∧ a.1 < b.1)

theorem agent_commissions_keys_lt (rows : List AgRow) :
    (agent_commissions rows).Pairwise fun a b => a.1 < b.1 := by
  unfold agent_commissions
  rw [List.pairwise_map]
  have hsorted : (agentKeys rows).Sorted (· ≤ ·) :=
    List.sorted_insertionSort _ _
  have hnodup : (agentKeys rows).Nodup :=
    (List.perm_insertionSort _ _).nodup_iff.mpr (List.nodup_dedup _)
  exact (hsorted.and hnodup).imp fun {a b} h => lt_of_le_of_ne h.1 h.2

theorem orderedInsert_pairwise_rLex (a : String × AgentStats)
    (s : List (String × AgentStats)) (hs : s.Pairwise rLex)
    (ha : ∀ b ∈ s, a.1 < b.1) :
    (List.orderedInsert commissionGE a s).Pairwise rLex := by
  induction s with
  | nil => simp [List.orderedInsert]
  | cons b s' ih =>
    rw [List.orderedInsert]
    by_cases hab : commissionGE a b
    · rw [if_pos hab]
      have hle : b.2.total_commission ≤ a.2.total_commission := hab
      refine List.Pairwise.cons ?_ hs
      intro y hy
      rcases List.mem_cons.mp hy with rfl | hy
      · rcases lt_or_eq_of_le hle with h | h
        · exact Or.inl h
        · exact Or.inr ⟨h.symm, ha y (List.mem_cons_self y s')⟩
      · have hyb := (List.pairwise_cons.mp hs).1 y hy
        have h1 : y.2.total_commission ≤ b.2.total_commission := by
          rcases hyb with h | h
          · exact le_of_lt h
          · exact le_of_eq h.1.symm
        rcases lt_or_eq_of_le (le_trans h1 hle) with h | h
        · exact Or.inl h
        · exact Or.inr ⟨h.symm, ha y (List.mem_cons_of_mem b hy)⟩
    · rw [if_neg hab]
      have hba : a.2.total_commission < b.2.total_commission :=
        lt_of_not_le hab
      refine List.Pairwise.cons ?_
        (ih (List.pairwise_cons.mp hs).2 fun c hc => ha c (List.mem_cons_of_mem b hc))
      intro y hy
      rcases (List.mem_orderedInsert commissionGE).mp hy with rfl | hy
      · exact Or.inl hba
      · exact (List.pairwise_cons.mp hs).1 y hy

theorem insertionSort_pairwise_rLex (l : List (String × AgentStats))
    (hl : l.Pairwise fun a b => a.1 < b.1) :
    (List.insertionSort commissionGE l).Pairwise rLex := by
  induction l with
  | nil => simp
  | cons a l' ih =>
    rw [List.insertionSort]
    refine orderedInsert_pairwise_rLex a _ (ih (List.pairwise_cons.mp hl).2) ?_
    intro b hb
    exact (List.pairwise_cons.mp hl).1 b
      ((List.perm_insertionSort commissionGE l').mem_iff.mp hb)

/-- C6 counterexample: the rows encounter agent "B" before agent "A", both with
total commission 10.  The claim predicts top-performer order ["B", "A"]
(encounter order), but `groupby` sorts the group keys, so the stable descending
sort yields ["A", "B"]. -/
theorem c6_counterexample :
    (topAgents [(some "B", some 10), (some "A", some 10)]).map Prod.fst = ["A", "B"]
      ∧ ([((some "B" : Option String), (some (10:ℚ))), (some "A", some 10)].filterMap
          Prod.fst).dedup = ["B", "A"]
      ∧ (["A", "B"] : List String) ≠ ["B", "A"] := by
  have hkeys : agentKeys [(some "B", some 10), (some "A", some 10)] = ["A", "B"] := by
    have h1 : ([((some "B" : Option String), (some (10:ℚ))),
        (some "A", some 10)].filterMap Prod.fst).dedup = ["B", "A"] := by decide
    unfold agentKeys
    rw [h1]
    simp [List.insertionSort, List.orderedInsert]
    try decide
  refine ⟨?_, by decide, by decide⟩
  have h2 : topAgents [(some "B", some 10), (some "A", some 10)]
      = (List.insertionSort commissionGE
          ((agentKeys [(some "B", some 10), (some "A", some 10)]).map
            fun k => (k, statsOf (groupRows [(some "B", some 10), (some "A", some 10)] k)))).take
          5 := rfl
  rw [h2, hkeys]
  decide

/-- C6 (amended): the top performers are the first five entries of the stable
descending-by-total sort of the agent groups; since the groups are produced in
ascending key order, two agents with equal total appear in ascending agent-key
order (pandas' group order), not in row encounter order.  The sorted list is a
permutation of the groups and is ordered by `rLex`: strictly descending total,
ties by ascending key. -/
theorem c6_top_performers (rows : List AgRow) :
    (List.insertionSort commissionGE (agent_commissions rows)).Perm
        (agent_commissions rows)
      ∧ (List.insertionSort commissionGE (agent_commissions rows)).Pairwise rLex
      ∧ topAgents rows
          = (List.insertionSort commissionGE (agent_commissions rows)).take 5
      ∧ (topAgents rows).Pairwise rLex
      ∧ top_performers rows
          = (topAgents rows).map fun p => (p.1, p.2.total_commission, p.2.average_commission) := by
  have hp := insertionSort_pairwise_rLex _ (agent_commissions_keys_lt rows)
  exact ⟨List.perm_insertionSort _ _, hp, rfl,
    List.Pairwise.sublist (List.take_sublist _ _) hp, rfl⟩

/-! ## ExcelProcessor state, summary report, and the financial-analysis pass
(`get_summary` and `analyze_financial_data`, excel_processor.py lines 88-188) -/

/-- Whether `pre` is a prefix of `l` (character lists). -/
def startsWithChars : List Char → List Char → Bool
  | _, [] => true
  | [], _ :: _ => false
  | a :: as, b :: bs => a == b && startsWithChars as bs

/-- Whether `needle` occurs as a contiguous substring of `hay` — Python's
`needle in hay` on strings. -/
def hasSub : List Char → List Char → Bool
  | [], needle => needle.isEmpty
  | a :: as, needle => startsWithChars (a :: as) needle || hasSub as needle

/-- ASCII lowercasing of one character (`str.lower()` restricted to the ASCII
column names the keyword heuristics target). -/
def charLower (c : Char) : Char :=
  if 'A' ≤ c ∧ c ≤ 'Z' then Char.ofNat (c.toNat + 32) else c

/-- `term in col.lower()`. -/
def containsTerm (s : String) (t : String) : Bool :=
  hasSub (s.data.map charLower) t.data

/-- The date-keyword list of excel_processor.py line 158. -/
def dateTerms : List String := ["date", "time", "period", "day", "month", "year"]

/-- The amount-keyword list of excel_processor.py line 129. -/
def amountTerms : List String :=
  ["amount", "price", "cost", "fee", "payment", "loan", "principal", "interest"]

/-- Whether a column name matches the date-keyword heuristic. -/
def isDateName (s : String) : Bool := dateTerms.any (containsTerm s)

/-- Whether a column name matches the amount-keyword heuristic. -/
def isAmountName (s : String) : Bool := amountTerms.any (containsTerm s)

/-- `self.data`: the ordered named columns of the loaded DataFrame. -/
structure Frame where
  cols : List (String × Column)
  deriving DecidableEq, Repr

/-- The frame's column names, in order. -/
def Frame.names (f : Frame) : List String := f.cols.map Prod.fst

/-- `self.data[n]`, as an option. -/
def Frame.col? (f : Frame) (n : String) : Option Column :=
  (f.cols.find? fun p => p.1 == n).map Prod.snd

/-- `self.data[n] = c`: replaces the column in place when the name exists,
appends a new last column otherwise. -/
def Frame.setCol (f : Frame) (n : String) (c : Column) : Frame :=
  if f.cols.any fun p => p.1 == n then
    ⟨f.cols.map fun p => if p.1 == n then (n, c) else p⟩
  else ⟨f.cols ++ [(n, c)]⟩

/-- `len(self.data)`. -/
def Frame.nrows (f : Frame) : ℕ :=
  match f.cols with
  | [] => 0
  | c :: _ => c.2.cells.length

/-- The `ExcelProcessor` state after `load_data`: `self.columns` is captured
once at load time (line 32) and never updated afterwards, while `self.data`
may gain derived columns. -/
structure Proc where
  columns : List String
  frame : Frame
  deriving DecidableEq, Repr

/-- Per-numeric-column statistics of `get_basic_stats`.  pandas' `std` (sample,
`ddof=1`) is stored squared, as `ℚ` has no square root; two reports agree on
`varSample` iff they agree on the rendered standard deviation.  `none` models
the NaN pandas produces on too little data. -/
structure ColStats where
  mean : Option ℚ
  median : Option ℚ
  min : Option ℚ
  max : Option ℚ
  varSample : Option ℚ
  missing : ℕ
  deriving DecidableEq, Repr

/-- `series.isna().sum()`. -/
def countMissing (c : Column) : ℕ := c.cells.countP fun v => v == .missing

/-- Median of the non-missing values: middle of the sorted list, mean of the
two middles on even length, `none` on empty. -/
def medianQ (xs : List ℚ) : Option ℚ :=
  let s := List.insertionSort (· ≤ ·) xs
  if xs.length = 0 then none
  else if xs.length % 2 = 1 then some (s.getD (xs.length / 2) 0)
  else some ((s.getD (xs.length / 2 - 1) 0 + s.getD (xs.length / 2) 0) / 2)

/-- Sample variance (`ddof=1`): `none` (NaN) with fewer than two values. -/
def varSampleQ (xs : List ℚ) : Option ℚ :=
  if xs.length < 2 then none
  else
    let m := xs.sum / xs.length
    some ((xs.map fun x => (x - m) ^ 2).sum / ((xs.length : ℚ) - 1))

/-- The statistics record of one numeric column. -/
def colStats (c : Column) : ColStats :=
  { mean := if (numCells c).length = 0 then none
      else some ((numCells c).sum / (numCells c).length)
    median := medianQ (numCells c)
    min := listMin (numCells c)
    max := listMax (numCells c)
    varSample := varSampleQ (numCells c)
    missing := countMissing c }

/-- `get_basic_stats` (excel_processor.py lines 39-62): statistics of each
numeric-dtype column of the live frame, in column order. -/
def get_basic_stats (f : Frame) : List (String × ColStats) :=
  f.cols.filterMap fun p =>
    if p.2.dtype = .number then some (p.1, colStats p.2) else none

/-- `detect_data_types` (excel_processor.py lines 64-86) over the saved column
list. -/
def detect_data_types (p : Proc) : List (String × String) :=
  p.columns.map fun n => (n, detectColType ((p.frame.col? n).getD ⟨.text, []⟩))

/-- `fillna('')` on one cell. -/
def fillCell : CVal → CVal
  | .missing => .str ""
  | v => v

/-- `self.data.head(5).fillna('').to_dict('records')`: the first five rows as
records over all live-frame columns. -/
def sampleData (f : Frame) : List (List (String × CVal)) :=
  (List.range (min 5 f.nrows)).map fun i =>
    f.cols.map fun p => (p.1, fillCell (p.2.cells.getD i .missing))

/-- The summary dict of `get_summary` (excel_processor.py lines 101-109). -/
structure Summary where
  rows : ℕ
  columns : ℕ
  column_names : List String
  statistics : List (String × ColStats)
  data_types : List (String × String)
  missing_values : List (String × ℕ)
  sample_data : List (List (String × CVal))
  deriving DecidableEq, Repr

/-- `get_summary` (excel_processor.py lines 88-111) on a loaded processor. -/
def get_summary (p : Proc) : Summary :=
  { rows := p.frame.nrows
    columns := p.columns.length
    column_names := p.columns
    statistics := get_basic_stats p.frame
    data_types := detect_data_types p
    missing_values := p.columns.map fun n =>
      (n, countMissing ((p.frame.col? n).getD ⟨.text, []⟩))
    sample_data := sampleData p.frame }

/-- `pd.to_datetime(column, errors='coerce')` on one cell, at the cell kinds
this model instantiates: a timestamp keeps its month, anything else coerces to
NaT.  (String/number date parsing is orthogonal to the claims, which only
distinguish parseable from unparseable cells.) -/
def toDatetimeCell : CVal → CVal
  | .date m => .date m
  | _ => .missing

/-- The parsed datetime column assigned to `self.data[f"{col}_dt"]`. -/
def toDatetimeCol (c : Column) : Column := ⟨.datetime, c.cells.map toDatetimeCell⟩

/-- The state effect of the date loop of `analyze_financial_data`
(excel_processor.py lines 155-165): for every saved column whose name contains
a date keyword, the live frame gains (or overwrites) the parsed column
`f"{col}_dt"`; nothing else is written. -/
def addDtCols (p : Proc) : Frame :=
  p.columns.foldl
    (fun f n =>
      if isDateName n then
        f.setCol (n ++ "_dt") (toDatetimeCol ((f.col? n).getD ⟨.text, []⟩))
      else f)
    p.frame

/-- The parsed column the date loop derives from saved column `n` (reading the
original frame: under the freshness invariant `WFProc` the loop's live-frame
read of `n` sees the original column). -/
def parsedCol (p : Proc) (n : String) : Column :=
  toDatetimeCol ((p.frame.col? n).getD ⟨.text, []⟩)

/-- `not series.isna().all()`: at least one parseable timestamp. -/
def hasParsed (c : Column) : Bool := c.cells.any fun v => !(v == .missing)

/-- The saved columns the time-series pass keeps as date columns
(excel_processor.py lines 160-163): date-named, with at least one parsed
timestamp. -/
def dateNames (p : Proc) : List String :=
  p.columns.filter fun n => isDateName n && hasParsed (parsedCol p n)

/-- The amount columns (excel_processor.py lines 127-131): saved columns with
an amount keyword in the name and numeric dtype. -/
def amount_columns (p : Proc) : List String :=
  p.columns.filter fun n =>
    isAmountName n && (((p.frame.col? n).getD ⟨.text, []⟩).dtype == .number)

/-- The parsed months of a datetime column, by row. -/
def colDates (c : Column) : List (Option ℤ) :=
  c.cells.map fun v => match v with | .date m => some m | _ => none

/-- The numeric values of an amount column, by row (NaN = `none`). -/
def colAmounts (c : Column) : List (Option ℚ) :=
  c.cells.map fun v => match v with | .num q => some q | _ => none

/-- The `financial_analysis` record (excel_processor.py lines 133-188). -/
structure FinancialAnalysis where
  amount_cols : List String
  totals : List (String × ℚ)
  averages : List (String × Option ℚ)
  distributions : List (String × (List String × List ℕ))
  time_series : List (String × (List String × List ℚ))
  deriving DecidableEq, Repr

/-- `analyze_financial_data` (excel_processor.py lines 113-188): the returned
analysis record together with the mutated processor state (the date loop adds
`_dt` columns to `self.data`, so the pass is not state-free). -/
def analyze_financial_data (p : Proc) : Proc × FinancialAnalysis :=
  let acols := amount_columns p
  let colOf := fun n => (p.frame.col? n).getD (⟨.text, []⟩ : Column)
  let dnames := dateNames p
  ({ p with frame := addDtCols p },
   { amount_cols := acols
     totals := acols.map fun n => (n, (numCells (colOf n)).sum)
     averages := acols.map fun n =>
       (n, if (numCells (colOf n)).length = 0 then none
           else some ((numCells (colOf n)).sum / (numCells (colOf n)).length))
     distributions := acols.map fun n =>
       (n, (histLabels (numCells (colOf n)), histCounts (numCells (colOf n))))
     time_series :=
       if dnames ≠ [] ∧ acols ≠ [] then
         dnames.flatMap fun n =>
           acols.map fun ac =>
             (((n ++ "_dt").replace "_dt" "") ++ "_" ++ ac ++ "_monthly",
              timeSeriesEntry ((colDates (parsedCol p n)).zip (colAmounts (colOf ac))))
       else [] })

/-- Loaded-processor invariant for the frame-mutation claims: the saved column
list is exactly the frame's column names, has no duplicates, and no saved name
is the `_dt`-derivative of a saved name, so the names the date loop writes are
fresh. -/
def WFProc (p : Proc) : Prop :=
  p.columns = p.frame.names
    ∧ p.columns.Nodup
    ∧ ∀ n ∈ p.columns, ∀ m ∈ p.columns, m ≠ n ++ "_dt"

instance instDecWFProc (p : Proc) : Decidable (WFProc p) :=
  inferInstanceAs (Decidable (p.columns = p.frame.names
    ∧ p.columns.Nodup
    ∧ ∀ n ∈ p.columns, ∀ m ∈ p.columns, m ≠ n ++ "_dt"))

theorem append_dt_inj {a b : String} (h : a ++ "_dt" = b ++ "_dt") : a = b := by
  have hd : a.data ++ "_dt".data = b.data ++ "_dt".data := by
    rw [← String.data_append, ← String.data_append, h]
  exact String.ext (List.append_cancel_right hd)

theorem Frame.col?_append (l₁ l₂ : List (String × Column)) (n : String) :
    (Frame.mk (l₁ ++ l₂)).col? n
      = ((Frame.mk l₁).col? n).or ((Frame.mk l₂).col? n) := by
  unfold Frame.col?
  rw [List.find?_append]
  cases List.find? (fun p => p.1 == n) l₁ <;> simp

theorem Frame.col?_singleton (k : String) (c : Column) (n : String) :
    (Frame.mk [(k, c)]).col? n = if k = n then some c else none := by
  unfold Frame.col?
  by_cases h : k = n
  · subst h
    simp [List.find?]
  · simp [List.find?, show (k == n) = false from beq_eq_false_iff_ne.mpr h, h]

theorem Frame.col?_snoc_ne (f : Frame) (k : String) (c : Column) (n : String)
    (h : n ≠ k) :
    (Frame.mk (f.cols ++ [(k, c)])).col? n = f.col? n := by
  rw [Frame.col?_append, Frame.col?_singleton, if_neg (Ne.symm h)]
  show (f.col? n).or none = f.col? n
  exact Option.or_none

theorem Frame.col?_isSome_of_mem {f : Frame} {n : String} (h : n ∈ f.names) :
    ∃ c, f.col? n = some c := by
  obtain ⟨q, hq, rfl⟩ := List.mem_map.mp h
  have : (f.cols.find? fun p => p.1 == q.1).isSome :=
    List.find?_isSome.mpr ⟨q, hq, by simp⟩
  obtain ⟨r, hr⟩ := Option.isSome_iff_exists.mp this
  exact ⟨r.2, by unfold Frame.col?; rw [hr]; rfl⟩

theorem Frame.setCol_fresh (f : Frame) (n : String) (c : Column)
    (h : n ∉ f.names) :
    f.setCol n c = ⟨f.cols ++ [(n, c)]⟩ := by
  have hany : (f.cols.any fun p => p.1 == n) = false := by
    rw [List.any_eq_false]
    intro q hq
    intro he
    rw [beq_iff_eq] at he
    exact h (he ▸ List.mem_map_of_mem Prod.fst hq)
  simp [Frame.setCol, hany]

theorem Frame.names_snoc (f : Frame) (k : String) (c : Column) :
    (Frame.mk (f.cols ++ [(k, c)])).names = f.names ++ [k] := by
  unfold Frame.names
  rw [List.map_append]
  rfl

/-- The accumulated effect of the date loop: under freshness of the derived
names and absence of `_dt`-aliasing among the iterated names, the fold appends
one parsed column per date-named column, in order, reading each source column
from the original frame. -/
theorem addDt_foldl (ns : List String) (f : Frame)
    (hfresh : ∀ n ∈ ns, (n ++ "_dt") ∉ f.names)
    (hnd : ns.Nodup)
    (hnodt : ∀ n ∈ ns, ∀ m ∈ ns, m ≠ n ++ "_dt") :
    ns.foldl
        (fun f n =>
          if isDateName n then
            f.setCol (n ++ "_dt") (toDatetimeCol ((f.col? n).getD ⟨.text, []⟩))
          else f) f
      = ⟨f.cols ++ (ns.filter fun n => isDateName n).map
          fun n => (n ++ "_dt", toDatetimeCol ((f.col? n).getD ⟨.text, []⟩))⟩ := by
  induction ns generalizing f with
  | nil =>
    cases f
    simp
  | cons n ns ih =>
    rw [List.foldl_cons]
    have hnmem : n ∈ n :: ns := List.mem_cons_self n ns
    by_cases hd : isDateName n = true
    · have hset :
          (if isDateName n then
              f.setCol (n ++ "_dt") (toDatetimeCol ((f.col? n).getD ⟨.text, []⟩))
            else f)
            = ⟨f.cols ++ [(n ++ "_dt", toDatetimeCol ((f.col? n).getD ⟨.text, []⟩))]⟩ := by
        rw [if_pos hd]
        exact Frame.setCol_fresh f _ _ (hfresh n hnmem)
      rw [hset]
      set f' : Frame := ⟨f.cols ++ [(n ++ "_dt", toDatetimeCol ((f.col? n).getD ⟨.text, []⟩))]⟩
        with hf'
      have hnames' : f'.names = f.names ++ [n ++ "_dt"] := Frame.names_snoc f _ _
      have hread : ∀ m ∈ ns, f'.col? m = f.col? m := by
        intro m hm
        exact Frame.col?_snoc_ne f _ _ m (hnodt n hnmem m (List.mem_cons_of_mem n hm))
      have hfresh' : ∀ m ∈ ns, (m ++ "_dt") ∉ f'.names := by
        intro m hm
        rw [hnames']
        intro hmem
        rcases List.mem_append.mp hmem with h | h
        · exact hfresh m (List.mem_cons_of_mem n hm) h
        · have : m ++ "_dt" = n ++ "_dt" := List.mem_singleton.mp h
          have : m = n := append_dt_inj this
          exact (List.nodup_cons.mp hnd).1 (this ▸ hm)
      have hnodt' : ∀ a ∈ ns, ∀ m ∈ ns, m ≠ a ++ "_dt" := fun a ha m hm =>
        hnodt a (List.mem_cons_of_mem n ha) m (List.mem_cons_of_mem n hm)
      rw [ih f' hfresh' (List.nodup_cons.mp hnd).2 hnodt']
      have hmapeq :
          (ns.filter fun m => isDateName m).map
              (fun m => (m ++ "_dt", toDatetimeCol ((f'.col? m).getD ⟨.text, []⟩)))
            = (ns.filter fun m => isDateName m).map
              (fun m => (m ++ "_dt", toDatetimeCol ((f.col? m).getD ⟨.text, []⟩))) :=
        List.map_congr_left fun m hm => by
          rw [hread m (List.mem_of_mem_filter hm)]
      rw [hmapeq, List.filter_cons_of_pos hd, List.map_cons]
      rw [hf']
      simp
    · rw [if_neg hd]
      have hfresh' : ∀ m ∈ ns, (m ++ "_dt") ∉ f.names := fun m hm =>
        hfresh m (List.mem_cons_of_mem n hm)
      have hnodt' : ∀ a ∈ ns, ∀ m ∈ ns, m ≠ a ++ "_dt" := fun a ha m hm =>
        hnodt a (List.mem_cons_of_mem n ha) m (List.mem_cons_of_mem n hm)
      rw [ih f hfresh' (List.nodup_cons.mp hnd).2 hnodt']
      rw [List.filter_cons_of_neg (by simpa using hd)]

/-- The state effect of `analyze_financial_data` on a well-formed processor:
the frame is the original one followed by one parsed `_dt` column per
date-named saved column, in order. -/
theorem addDtCols_eq (p : Proc) (hwf : WFProc p) :
    addDtCols p
      = ⟨p.frame.cols ++ (p.columns.filter fun n => isDateName n).map
          fun n => (n ++ "_dt", parsedCol p n)⟩ := by
  obtain ⟨h1, h2, h3⟩ := hwf
  unfold addDtCols
  rw [addDt_foldl p.columns p.frame
    (fun n hn hmem => h3 n hn (n ++ "_dt") (h1 ▸ hmem) rfl) h2 h3]
  rfl

/-- A processor with no date-named column is left untouched by the date loop
(no well-formedness needed). -/
theorem addDtCols_id (p : Proc) (h : ∀ n ∈ p.columns, isDateName n = false) :
    addDtCols p = p.frame := by
  unfold addDtCols
  have hgen : ∀ (ns : List String), (∀ n ∈ ns, isDateName n = false) → ∀ f : Frame,
      ns.foldl
          (fun f n =>
            if isDateName n then
              f.setCol (n ++ "_dt") (toDatetimeCol ((f.col? n).getD ⟨.text, []⟩))
            else f) f
        = f := by
    intro ns
    induction ns with
    | nil => intro _ f; rfl
    | cons a l ihl =>
      intro hh f
      rw [List.foldl_cons, if_neg (by simp [hh a (List.mem_cons_self a l)])]
      exact ihl (fun n hn => hh n (List.mem_cons_of_mem a hn)) f
  exact hgen p.columns h p.frame

/-- C5 (amended): `analyze_financial_data` does NOT leave the loaded table
unchanged: on a well-formed processor it appends one parsed `{col}_dt` column
per date-named saved column (and nothing else), so a subsequent `get_summary`
agrees with the pre-analysis summary on every field — rows, column count,
column names, statistics, data types, missing counts — except `sample_data`,
whose rows gain the derived datetime columns.  When no saved column is
date-named, the processor is untouched and the summaries coincide entirely. -/
theorem c5_analyze_mutates (p : Proc) (hwf : WFProc p) :
    (analyze_financial_data p).1.columns = p.columns
      ∧ (analyze_financial_data p).1.frame
          = ⟨p.frame.cols ++ (p.columns.filter fun n => isDateName n).map
              fun n => (n ++ "_dt", parsedCol p n)⟩
      ∧ (∀ n ∈ p.columns,
          (analyze_financial_data p).1.frame.col? n = p.frame.col? n)
      ∧ ((∀ n ∈ p.columns, isDateName n = false) → (analyze_financial_data p).1 = p)
      ∧ (get_summary (analyze_financial_data p).1).rows = (get_summary p).rows
      ∧ (get_summary (analyze_financial_data p).1).columns = (get_summary p).columns
      ∧ (get_summary (analyze_financial_data p).1).column_names
          = (get_summary p).column_names
      ∧ (get_summary (analyze_financial_data p).1).statistics
          = (get_summary p).statistics
      ∧ (get_summary (analyze_financial_data p).1).data_types
          = (get_summary p).data_types
      ∧ (get_summary (analyze_financial_data p).1).missing_values
          = (get_summary p).missing_values
      ∧ (get_summary (analyze_financial_data p).1).sample_data
          = (List.range (min 5 p.frame.nrows)).map fun i =>
              (p.frame.cols.map fun q => (q.1, fillCell (q.2.cells.getD i .missing)))
                ++ ((p.columns.filter fun n => isDateName n).map fun n =>
                    (n ++ "_dt",
                     fillCell ((parsedCol p n).cells.getD i .missing))) := by
  have he := addDtCols_eq p hwf
  have hpres : ∀ n ∈ p.columns,
      (analyze_financial_data p).1.frame.col? n = p.frame.col? n := by
    intro n hn
    show (addDtCols p).col? n = p.frame.col? n
    rw [he, Frame.col?_append]
    obtain ⟨c, hc⟩ := Frame.col?_isSome_of_mem (f := p.frame) (hwf.1 ▸ hn)
    show (p.frame.col? n).or _ = p.frame.col? n
    rw [hc]
    rfl
  have hnr : (addDtCols p).nrows = p.frame.nrows := by
    rw [he]
    unfold Frame.nrows
    rcases heq : p.frame.cols with - | ⟨c, rest⟩
    · have hc0 : p.columns = [] := by
        rw [hwf.1]
        unfold Frame.names
        rw [heq]
        rfl
      rw [hc0]
      rfl
    · rfl
  have hstats : get_basic_stats (addDtCols p) = get_basic_stats p.frame := by
    rw [he]
    unfold get_basic_stats
    show (p.frame.cols ++ (p.columns.filter fun n => isDateName n).map
        fun n => (n ++ "_dt", parsedCol p n)).filterMap _ = _
    rw [List.filterMap_append]
    have hD : ((p.columns.filter fun n => isDateName n).map
        (fun n => (n ++ "_dt", parsedCol p n))).filterMap
          (fun q => if q.2.dtype = DType.number then some (q.1, colStats q.2) else none)
        = [] := by
      rw [List.filterMap_eq_nil_iff]
      intro x hx
      obtain ⟨m, -, rfl⟩ := List.mem_map.mp hx
      exact if_neg fun hh => DType.noConfusion hh
    rw [hD, List.append_nil]
  refine ⟨rfl, he, hpres, ?_, hnr, rfl, rfl, hstats, ?_, ?_, ?_⟩
  · intro hnone
    show ({ p with frame := addDtCols p } : Proc) = p
    rw [addDtCols_id p hnone]
  · show p.columns.map _ = p.columns.map _
    exact List.map_congr_left fun n hn => by rw [hpres n hn]
  · show p.columns.map _ = p.columns.map _
    exact List.map_congr_left fun n hn => by rw [hpres n hn]
  · show sampleData (addDtCols p) = _
    unfold sampleData
    rw [show min 5 (addDtCols p).nrows = min 5 p.frame.nrows from by rw [hnr]]
    apply List.map_congr_left
    intro i hi
    rw [he]
    show (p.frame.cols ++ (p.columns.filter fun n => isDateName n).map
        (fun n => (n ++ "_dt", parsedCol p n))).map _ = _
    rw [List.map_append]
    congr 1
    rw [List.map_map]
    rfl

/-- The two-column loaded table used to exhibit the C5 mutation: a datetime
column named "date" and a numeric column named "amount", one row. -/
def procEx : Proc :=
  ⟨["date", "amount"],
   ⟨[("date", ⟨.datetime, [.date 600]⟩), ("amount", ⟨.number, [.num 10]⟩)]⟩⟩

/-- C5 counterexample: on `procEx`, `analyze_financial_data` adds the derived
column "date_dt" to the frame, and the subsequent summary's 5-row sample
differs from the pre-analysis one (its rows gain a "date_dt" cell), while the
statistics field is unchanged — so summarize-after-analyze is not identical to
summarize-before, refuting the frame/order-independence claim. -/
theorem c5_counterexample :
    (analyze_financial_data procEx).1.frame ≠ procEx.frame
      ∧ (analyze_financial_data procEx).1.frame.names = ["date", "amount", "date_dt"]
      ∧ (get_summary (analyze_financial_data procEx).1).sample_data
          ≠ (get_summary procEx).sample_data
      ∧ (get_summary (analyze_financial_data procEx).1).statistics
          = (get_summary procEx).statistics := by decide

/-- C5 witness: the amended theorem applied to `procEx`, whose summaries agree
on rows and missing counts after the analysis pass. -/
theorem c5_witness :
    (get_summary (analyze_financial_data procEx).1).rows = (get_summary procEx).rows
      ∧ (get_summary (analyze_financial_data procEx).1).missing_values
          = (get_summary procEx).missing_values := by
  have h := c5_analyze_mutates procEx (by decide)
  exact ⟨h.2.2.2.2.1, h.2.2.2.2.2.2.2.2.2.1⟩

end MicrofinanceSmart
